import Mathlib

/-!
Verification of the fluxion engine core against its specification.

The development shallowly embeds the Go sources of the repository:
the in-memory output buffer (package buffer), the tag-routing engine
(package engine) and the host/plugin message codec (package message).
Machine integers (int64, int32) are modelled as Int, with explicit
wrap-around where int32 arithmetic can overflow.  Stateful methods
become pure state-transition functions; a method that both mutates the
receiver and returns an error becomes a function returning the new
state paired with an optional error.
-/

section Definitions

variable {α : Type}

/-- Mirrors buffer.StringItem: a string whose Size is its length. -/
def StringItem.size (s : String) : Int :=
  s.length

/-- Mirrors buffer.MemoryChunk: an ordered list of items plus a running
size total.  Items are abstracted over a type α with an explicit size
function (the Go Sizer interface). -/
structure MemoryChunk (α : Type) where
  size : Int
  items : List α
deriving Repr, DecidableEq

/-- Mirrors (*MemoryChunk).Push: add the item size to the running total
and append the item at the end. -/
def MemoryChunk.push (sz : α → Int) (c : MemoryChunk α) (s : α) : MemoryChunk α :=
  { size := c.size + sz s, items := c.items ++ [s] }

/-- Mirrors buffer.Memory: the chunk queue plus its configuration.  The
head of the `chunks` list is the Front of the Go container/list (the
chunk accepting pushes, newest); the last element is the Back (the next
chunk to flush, oldest).  The flusher goroutine, mutex and wake channel
are concurrency machinery with no effect on the queue state and are not
part of the model. -/
structure Memory (α : Type) where
  chunks : List (MemoryChunk α)
  maxChunkSize : Int
  maxQueueSize : Int
  closed : Bool
deriving Repr, DecidableEq

/-- Mirrors buffer.NewMemory: empty queue with the given limits. -/
def NewMemory (α : Type) (maxChunk maxQueue : Int) : Memory α :=
  { chunks := [], maxChunkSize := maxChunk, maxQueueSize := maxQueue, closed := false }

/-- Mirrors (*Memory).Push.  Returns the new state and the error, since
the Go method mutates the receiver and returns an error.  Oversized
items are rejected before the queue is touched.  Otherwise: if there is
no front chunk or the front would overflow, a fresh chunk is pushed at
the front and, if the queue now exceeds maxQueueSize, the Back element
is removed (in the degenerate case maxQueueSize < 1 with an empty
queue, the Back is the chunk just pushed, so the item lands in a
detached chunk and the queue stays empty, exactly as the Go code
behaves).  Finally the item is appended to the chunk the code holds in
`e`. -/
def Memory.push (sz : α → Int) (m : Memory α) (s : α) : Memory α × Option String :=
  let n := sz s
  if n > m.maxChunkSize then
    (m, some "Too large item")
  else
    match m.chunks with
    | [] =>
        if (1 : Int) > m.maxQueueSize then
          ({ m with chunks := [] }, none)
        else
          ({ m with chunks := [MemoryChunk.push sz { size := 0, items := [] } s] }, none)
    | c :: rest =>
        if c.size + n > m.maxChunkSize then
          let retained :=
            if ((c :: rest).length : Int) + 1 > m.maxQueueSize then
              (c :: rest).dropLast
            else
              c :: rest
          ({ m with chunks := MemoryChunk.push sz { size := 0, items := [] } s :: retained }, none)
        else
          ({ m with chunks := MemoryChunk.push sz c s :: rest }, none)

/-- Mirrors the Go built-in copy(chunk.Items, chunk.Items[n:]) on a
slice of length L: element j becomes the old element n+j for
j < L - n, and keeps its old value for j ≥ L - n.  The length of the
slice does not change. -/
def goCopyShift (items : List α) (n : Nat) : List α :=
  items.drop n ++ items.drop (items.length - n)

/-- Mirrors one iteration of the flusher loop (*Memory).pop after it
has been woken: take the Back chunk (if any), hand its items to the
handler, and either remove the chunk (on success) or apply the
copy-shift to its items (on error).  The handler result (n, err) is a
parameter, since the handler is external input; err is modelled as a
Bool (true = non-nil). -/
def Memory.popStep (m : Memory α) (n : Nat) (writeErr : Bool) : Memory α :=
  match m.chunks.getLast? with
  | none => m
  | some chunk =>
      if writeErr then
        { m with chunks :=
            m.chunks.dropLast ++ [{ chunk with items := goCopyShift chunk.items n }] }
      else
        { m with chunks := m.chunks.dropLast }

/-- The sequence of item lists handed to handler.Write by the Close
loop `for e := m.chunks.Front(); e != nil; e = e.Next()`, which walks
the queue from Front (the newest chunk) towards Back (the oldest). -/
def closeWrites : List (MemoryChunk α) → List (List α)
  | [] => []
  | c :: rest => c.items :: closeWrites rest

/-- Mirrors (*Memory).Close: set closed, hand each chunk's items to the
handler iterating from Front to Back (handler errors are ignored), then
clear the queue.  The second component is the sequence of item lists
passed to handler.Write, in call order. -/
def Memory.close (m : Memory α) : Memory α × List (List α) :=
  ({ m with closed := true, chunks := [] }, closeWrites m.chunks)

/-- Every chunk's running size is within the configured bound. -/
def Memory.sizeInv (m : Memory α) : Prop :=
  ∀ c ∈ m.chunks, c.size ≤ m.maxChunkSize

/-- The queue length is within the configured bound. -/
def Memory.queueInv (m : Memory α) : Prop :=
  (m.chunks.length : Int) ≤ m.maxQueueSize

/-- Fold a sequence of pushes, each keeping the state of a failed push
unchanged (as the caller of the Go method would). -/
def Memory.pushAll (sz : α → Int) (m : Memory α) (items : List α) : Memory α :=
  items.foldl (fun acc s => (acc.push sz s).1) m

/-- Modelled from the spec: the TagRouter type's own source file is not
under src/ (engine.go only declares the fields and calls Add and
Route).  Per spec section 4.4, a tag router is an ordered list of
(pattern, exec unit) pairs.  A compiled regular expression is
abstracted as its matching predicate on tags; exec units are abstracted
by a type U. -/
structure TagRouter (U : Type) where
  entries : List ((String → Bool) × U)

/-- Modelled from the spec: Route scans the entries in insertion order
and returns the first unit whose pattern matches the tag. -/
def routeEntries {U : Type} : List ((String → Bool) × U) → String → Option U
  | [], _ => none
  | en :: rest, tag => if en.1 tag then some en.2 else routeEntries rest tag

/-- Modelled from the spec: Add appends an entry. -/
def TagRouter.add {U : Type} (r : TagRouter U) (p : String → Bool) (u : U) : TagRouter U :=
  ⟨r.entries ++ [(p, u)]⟩

/-- Modelled from the spec: Route is first-match lookup. -/
def TagRouter.route {U : Type} (r : TagRouter U) (tag : String) : Option U :=
  routeEntries r.entries tag

/-- A delivery performed by the engine's routing entry points: an event
handed to a filter unit, or to a unit of a named output router. -/
inductive Delivery (U : Type) where
  | toFilter (u : U)
  | toOutput (router : String) (u : U)
deriving Repr, DecidableEq

/-- The name of the output router a delivery went through, if any. -/
def Delivery.routerName {U : Type} : Delivery U → Option String
  | .toFilter _ => none
  | .toOutput n _ => some n

/-- The routing state of engine.Engine used by Filter and Emit: the
filter router ftr and the named output routers tr.  The Go map from
names to routers is modelled as an association list with pairwise
distinct keys (Go map keys are unique); Go map iteration order is
unspecified, so the list order fixes one iteration order, which affects
only the order of deliveries, not which deliveries happen. -/
structure RoutingEngine (U : Type) where
  ftr : TagRouter U
  tr : List (String × TagRouter U)

/-- Mirrors (*Engine).Emit: offer the event's tag to every named
output router; each router that matches delivers the event to the
routed unit. -/
def RoutingEngine.emit {U : Type} (e : RoutingEngine U) (tag : String) : List (Delivery U) :=
  e.tr.filterMap (fun nr => (nr.2.route tag).map (fun u => Delivery.toOutput nr.1 u))

/-- Mirrors (*Engine).Filter: if the filter router matches the tag,
deliver to that filter unit and return; otherwise fall through to
Emit. -/
def RoutingEngine.filterEvent {U : Type} (e : RoutingEngine U) (tag : String) : List (Delivery U) :=
  match e.ftr.route tag with
  | some u => [Delivery.toFilter u]
  | none => e.emit tag

/-- A concrete output router over unit ids, for witnesses. -/
def exampleAppRouter : TagRouter Nat :=
  ⟨[(fun t => t == "app.auth", 10), (fun t => t == "app.auth", 11)]⟩

/-- Two named output routers with distinct names, for witnesses. -/
def exampleRouters : List (String × TagRouter Nat) :=
  [("app", exampleAppRouter), ("sys", ⟨[(fun t => t == "sys.log", 20)]⟩)]

/-- A concrete routing engine with an empty filter router, for
witnesses. -/
def exampleEngine : RoutingEngine Nat :=
  ⟨⟨[]⟩, exampleRouters⟩

/-- int32 wrap-around, the arithmetic of atomic.AddInt32 on the
engine's unitID counter. -/
def wrap32 (x : Int) : Int :=
  (x + 2 ^ 31) % 2 ^ 32 - 2 ^ 31

/-- Output plugin configuration as read by RegisterOutputPlugin:
conf["type"], optional conf["buffer"], conf["match"]. -/
structure OutConf where
  typ : String
  buffer : Option String
  matchPat : String

/-- Filter plugin configuration as read by RegisterFilterPlugin:
conf["type"] and conf["match"]. -/
structure FilterConf where
  typ : String
  matchPat : String

/-- The registration-time state of engine.Engine: plugin instance
names in creation order, exec unit ids in creation order, the named
output routers, the engine filter router, the filter chain (each
registered filter unit with its own outbound router), the registered
buffer policy names, and the int32 unit id counter.  Exec units are
identified by their ids. -/
structure EngineM where
  plugins : List String
  units : List Int
  tr : List (String × TagRouter Int)
  ftr : TagRouter Int
  filters : List (Int × TagRouter Int)
  bufs : List String
  unitID : Int

/-- Mirrors engine.New in its registration-relevant fields: the
"default" buffer policy is pre-registered and the unit id counter
starts at 0. -/
def EngineM.new : EngineM :=
  { plugins := [], units := [], tr := [], ftr := ⟨[]⟩, filters := [],
    bufs := ["default"], unitID := 0 }

/-- Mirrors (*Engine).pluginInstance: create the named instance on
first reference (the transport and supervision wiring has no effect on
registration state). -/
def EngineM.pluginInstance (e : EngineM) (name : String) : EngineM :=
  if name ∈ e.plugins then e else { e with plugins := e.plugins ++ [name] }

/-- Mirrors (*Engine).addExecUnit: atomically increment the int32 unit
id counter (with wrap-around) and append a unit carrying the new id. -/
def EngineM.addExecUnit (e : EngineM) : EngineM × Int :=
  let uid := wrap32 (e.unitID + 1)
  ({ e with units := e.units ++ [uid], unitID := uid }, uid)

/-- Mirrors (*Engine).RegisterInputPlugin: resolve the "in-" instance
and add one exec unit. -/
def EngineM.registerInput (e : EngineM) (typ : String) : EngineM :=
  ((e.pluginInstance ("in-" ++ typ)).addExecUnit).1

/-- Assignment into the Go map of named routers: replace the router
stored under the name (names are unique keys). -/
def updateRouter : List (String × TagRouter Int) → String →
    (TagRouter Int → TagRouter Int) → List (String × TagRouter Int)
  | [], _, _ => []
  | nr :: rest, name, f =>
      (if nr.1 = name then (nr.1, f nr.2) else nr) :: updateRouter rest name f

/-- The effect of RegisterFilterPlugin on the filter chain (engine.go
lines 132-136): add the new filter's route entry to every preceding
filter's router, then append the new filter with an empty router of its
own (the exec unit's router starts empty). -/
def addFilterChain (filters : List (Int × TagRouter Int)) (p : String → Bool) (u : Int) :
    List (Int × TagRouter Int) :=
  filters.map (fun fu => (fu.1, fu.2.add p u)) ++ [(u, ⟨[]⟩)]

/-- Mirrors (*Engine).RegisterOutputPlugin, with regexp.Compile
abstracted as a function from pattern strings to an optional matching
predicate (none = compile error).  Faithful to the source order: the
buffer name is checked first (returning before anything is created),
then the plugin instance and the exec unit are created, then the named
router is created if missing, and only then is the pattern compiled;
a compile error returns after the unit has been registered. -/
def EngineM.registerOutput (compile : String → Option (String → Bool)) (e : EngineM)
    (name : String) (conf : OutConf) : EngineM × Option String :=
  let bufName := conf.buffer.getD "default"
  if bufName ∈ e.bufs then
    let e2 := ((e.pluginInstance ("out-" ++ conf.typ)).addExecUnit).1
    let uid := ((e.pluginInstance ("out-" ++ conf.typ)).addExecUnit).2
    let e3 := if name ∈ e2.tr.map Prod.fst then e2
              else { e2 with tr := e2.tr ++ [(name, ⟨[]⟩)] }
    match compile conf.matchPat with
    | none => (e3, some "regexp compile error")
    | some p => ({ e3 with tr := updateRouter e3.tr name (fun r => r.add p uid) }, none)
  else
    (e, some ("No such buffer defined: " ++ bufName))

/-- Mirrors (*Engine).RegisterFilterPlugin, compile abstracted as for
outputs.  The exec unit is created before the pattern is compiled, so a
compile error still leaves the unit registered; on success the entry is
added to the engine filter router and the filter chain is extended. -/
def EngineM.registerFilter (compile : String → Option (String → Bool)) (e : EngineM)
    (conf : FilterConf) : EngineM × Option String :=
  let e2 := ((e.pluginInstance ("filter-" ++ conf.typ)).addExecUnit).1
  let uid := ((e.pluginInstance ("filter-" ++ conf.typ)).addExecUnit).2
  match compile conf.matchPat with
  | none => (e2, some "regexp compile error")
  | some p =>
      ({ e2 with ftr := e2.ftr.add p uid, filters := addFilterChain e2.filters p uid }, none)

/-- One registration call on the engine. -/
inductive RegOp where
  | input (typ : String)
  | output (name : String) (conf : OutConf)
  | filt (conf : FilterConf)

/-- Apply one registration operation, keeping only the engine state. -/
def EngineM.applyOp (compile : String → Option (String → Bool)) (e : EngineM) :
    RegOp → EngineM
  | .input t => e.registerInput t
  | .output n c => (e.registerOutput compile n c).1
  | .filt c => (e.registerFilter compile c).1

/-- The filter chain built by registering the given (pattern, unit)
pairs in order, starting from no filters: the filters field of the
engine after the corresponding RegisterFilterPlugin calls. -/
def registerFilters (regs : List ((String → Bool) × Int)) : List (Int × TagRouter Int) :=
  regs.foldl (fun fs pu => addFilterChain fs pu.1 pu.2) []

/-- The expected shape of the filter chain: filter k carries the
entries of the later registrations. -/
def chainOf : List ((String → Bool) × Int) → List (Int × TagRouter Int)
  | [] => []
  | pu :: rest => (pu.2, ⟨rest⟩) :: chainOf rest

/-- The unit ids the engine assigns: 1, 2, 3, ... wrapped to int32. -/
def unitsOf (n : Nat) : List Int :=
  (List.range n).map (fun i : Nat => wrap32 ((i : Int) + 1))

/-- The id-assignment invariant: the unit list is the wrapped sequence
1, 2, ... and the counter holds the wrapped count. -/
def idInv (e : EngineM) : Prop :=
  e.units = unitsOf e.units.length ∧ e.unitID = wrap32 (e.units.length : Int)

/-- Mirrors message.MessageType, the Go iota enumeration: codes 0-9 in
this constructor order (InfoRequest .. Stdout). -/
inductive MessageType where
  | infoRequest
  | infoResponse
  | bufferOption
  | configure
  | start
  | stop
  | terminated
  | event
  | eventChain
  | stdout
deriving Repr, DecidableEq

/-- Modelled from the spec: generic msgpack values as decoded into a Go
interface value (RawToString makes raw bytes decode as strings, and
maps are string-keyed).  IEEE floating point values are outside the
model. -/
inductive CVal where
  | nil
  | int (i : Int)
  | str (s : String)
  | bool (b : Bool)
  | arr (xs : List CVal)
  | mp (xs : List (String × CVal))

/-- Modelled from the spec: message.Event, a (tag, time, record)
triple; the Event type's source file is not under src/.  The time
instant is modelled as epoch nanoseconds. -/
structure Event where
  tag : String
  time : Int
  record : List (String × CVal)

/-- Mirrors message.PluginInfo: the protocol version handshake
payload. -/
structure PluginInfo where
  protoVer : Nat

/-- Modelled from the spec: the buffer options record (name and the
three limits); the Options struct's source file is not under src/. -/
structure BufferOptions where
  name : String
  maxChunkSizeOpt : Int
  maxQueueSizeOpt : Int
  flushIntervalOpt : Int

/-- A payload value of a host-plugin message. -/
inductive Payload where
  | info (p : PluginInfo)
  | opts (o : BufferOptions)
  | str (s : String)
  | event (ev : Event)
  | events (evs : List Event)
  | raw (v : CVal)

/-- Mirrors message.Message: type, unit id (int32) and payload. -/
structure Message where
  typ : MessageType
  unitID : Int
  payload : Payload

/-- One value written by a single Encoder.Encode call, as framed by the
msgpack codec.  The external ugorji codec round-trips each supported Go
value, so the model keeps every encoded value abstract at the type
level; the repository code under verification contributes the framing:
the order of the Encode calls and the type-directed choice of decode
targets.  A typed value decodes successfully only into its own Go type
(decoding an array of events into a single Event struct fails), and any
value decodes generically into an interface value. -/
inductive WireItem where
  | i32 (n : Int)
  | payload (p : Payload)

/-- Mirrors (*Message).Encode: encode the UnitID, then the payload.
The message type is not encoded here; the pipe layer carries it. -/
def Message.encode (m : Message) : List WireItem :=
  [WireItem.i32 m.unitID, WireItem.payload m.payload]

/-- Mirrors the type switch of (*Message).Decode: the wire value the
decoder accepts for each message type.  TypInfoResponse decodes a
PluginInfo, TypBufferOption an Options record, TypConfigure a string,
TypEvent and TypEventChain both decode a single Event, and every other
type decodes generically into an interface value. -/
def decodePayload : MessageType → WireItem → Option Payload
  | .infoResponse, .payload (.info p) => some (.info p)
  | .bufferOption, .payload (.opts o) => some (.opts o)
  | .configure, .payload (.str s) => some (.str s)
  | .event, .payload (.event ev) => some (.event ev)
  | .eventChain, .payload (.event ev) => some (.event ev)
  | .infoRequest, .payload (.raw v) => some (.raw v)
  | .start, .payload (.raw v) => some (.raw v)
  | .stop, .payload (.raw v) => some (.raw v)
  | .terminated, .payload (.raw v) => some (.raw v)
  | .stdout, .payload (.raw v) => some (.raw v)
  | _, _ => none

/-- Mirrors (*Message).Decode on a message whose Type field is already
set (the pipe layer reads the type out of band): decode the UnitID,
then the payload according to the type switch. -/
def Message.decode (t : MessageType) : List WireItem → Option Message
  | WireItem.i32 n :: w :: _ => (decodePayload t w).map (fun p => ⟨t, n, p⟩)
  | _ => none

/-- The decode-target schema: the payload shapes (*Message).Decode's
type switch accepts, with a single Event for TypEventChain. -/
def schemaOk : MessageType → Payload → Prop
  | .infoResponse, .info _ => True
  | .bufferOption, .opts _ => True
  | .configure, .str _ => True
  | .event, .event _ => True
  | .eventChain, .event _ => True
  | .infoRequest, .raw _ => True
  | .start, .raw _ => True
  | .stop, .raw _ => True
  | .terminated, .raw _ => True
  | .stdout, .raw _ => True
  | _, _ => False

/-- The payload schema exactly as written in spec section 6.1, where
EventChain carries an array of Event (and the empty payloads are nil,
Stdout a string). -/
def specSchemaOk : MessageType → Payload → Prop
  | .infoRequest, .raw CVal.nil => True
  | .infoResponse, .info _ => True
  | .bufferOption, .opts _ => True
  | .configure, .str _ => True
  | .start, .raw CVal.nil => True
  | .stop, .raw CVal.nil => True
  | .terminated, .raw CVal.nil => True
  | .event, .event _ => True
  | .eventChain, .events _ => True
  | .stdout, .raw (CVal.str _) => True
  | _, _ => False

end Definitions

section Theorems

variable {α : Type}

/-- Push never changes the configured limits or the closed flag. -/
theorem Memory.push_fields (sz : α → Int) (m : Memory α) (s : α) :
    (m.push sz s).1.maxChunkSize = m.maxChunkSize ∧
    (m.push sz s).1.maxQueueSize = m.maxQueueSize ∧
    (m.push sz s).1.closed = m.closed := by
  obtain ⟨chunks, maxC, maxQ, cl⟩ := m
  cases chunks with
  | nil =>
      by_cases hn : sz s > maxC
      · simp [Memory.push, hn]
      · by_cases hq : (1 : Int) > maxQ
        · simp [Memory.push, hn, hq]
        · simp [Memory.push, hn, hq]
  | cons c rest =>
      by_cases hn : sz s > maxC
      · simp [Memory.push, hn]
      · by_cases ho : c.size + sz s > maxC
        · by_cases hq : ((c :: rest).length : Int) + 1 > maxQ
          · simp [Memory.push, hn, ho, hq]
          · simp [Memory.push, hn, ho, hq]
        · simp [Memory.push, hn, ho]

/-- A single successful or failed push preserves both buffer bounds. -/
theorem Memory.push_inv (sz : α → Int) (m : Memory α) (s : α)
    (hq0 : 0 ≤ m.maxQueueSize) (h1 : m.sizeInv) (h2 : m.queueInv) :
    (m.push sz s).1.sizeInv ∧ (m.push sz s).1.queueInv := by
  obtain ⟨chunks, maxC, maxQ, cl⟩ := m
  simp only [Memory.sizeInv, Memory.queueInv] at h1 h2 hq0 ⊢
  cases chunks with
  | nil =>
      by_cases hn : sz s > maxC
      · simp only [Memory.push, if_pos hn]
        exact ⟨h1, h2⟩
      · by_cases hq : (1 : Int) > maxQ
        · simp [Memory.push, hn, hq]
          exact hq0
        · simp [Memory.push, hn, hq, MemoryChunk.push]
          omega
  | cons c rest =>
      by_cases hn : sz s > maxC
      · simp only [Memory.push, if_pos hn]
        exact ⟨h1, h2⟩
      · by_cases ho : c.size + sz s > maxC
        · by_cases hq : ((c :: rest).length : Int) + 1 > maxQ
          · simp only [Memory.push, if_neg hn, if_pos ho, if_pos hq]
            constructor
            · intro x hx
              rcases List.mem_cons.mp hx with hx1 | hx2
              · subst hx1
                simp [MemoryChunk.push]
                omega
              · exact h1 x (List.dropLast_subset _ hx2)
            · simp only [List.length_cons, List.length_dropLast] at h2 ⊢
              push_cast at h2 ⊢
              omega
          · simp only [Memory.push, if_neg hn, if_pos ho, if_neg hq]
            constructor
            · intro x hx
              rcases List.mem_cons.mp hx with hx1 | hx2
              · subst hx1
                simp [MemoryChunk.push]
                omega
              · exact h1 x hx2
            · simp only [List.length_cons] at hq ⊢
              push_cast at hq ⊢
              omega
        · simp only [Memory.push, if_neg hn, if_neg ho]
          constructor
          · intro x hx
            rcases List.mem_cons.mp hx with hx1 | hx2
            · subst hx1
              simp [MemoryChunk.push]
              omega
            · exact h1 x (List.mem_cons_of_mem _ hx2)
          · simpa using h2

/-- Any sequence of pushes from a state satisfying the bounds keeps
satisfying them. -/
theorem Memory.pushAll_inv (sz : α → Int) (m : Memory α) (items : List α)
    (hq0 : 0 ≤ m.maxQueueSize) (h1 : m.sizeInv) (h2 : m.queueInv) :
    (m.pushAll sz items).sizeInv ∧ (m.pushAll sz items).queueInv := by
  induction items generalizing m with
  | nil => exact ⟨h1, h2⟩
  | cons s rest ih =>
      have hf := Memory.push_fields sz m s
      have hi := Memory.push_inv sz m s hq0 h1 h2
      exact ih (m.push sz s).1 (hf.2.1 ▸ hq0) hi.1 hi.2

/-- C1: evaluation of the flusher's error path at the spec's own
scenario (a 5-item chunk whose handler reports n = 2 committed items
and a non-nil error).  The code executes
copy(chunk.Items, chunk.Items[n:]) without truncating the slice, so the
retained chunk holds the five items c, d, e, d, e; the claim (and spec
scenario 5) requires the next attempt to present exactly the three
remaining items c, d, e. -/
theorem c1_pop_retry_presents_duplicates :
    (Memory.popStep
        { chunks := [{ size := 5, items := ["a", "b", "c", "d", "e"] }],
          maxChunkSize := 100, maxQueueSize := 10, closed := false }
        2 true).chunks =
      [{ size := 5, items := ["c", "d", "e", "d", "e"] }] ∧
    (["c", "d", "e", "d", "e"] : List String) ≠ ["c", "d", "e"] := by
  decide

/-- C2: for every buffer with a non-negative queue bound and every
sequence of pushes starting from the fresh buffer, the queue length
never exceeds max_queue_size and no chunk's size exceeds
max_chunk_size; moreover whenever retiring the head would make the
queue exceed max_queue_size, the push evicts the oldest (Back) chunk,
leaving the new head followed by the previous queue minus its last
element. -/
theorem c2_queue_bounds_and_eviction (α : Type) (sz : α → Int)
    (maxChunk maxQueue : Int) (hq0 : 0 ≤ maxQueue) :
    (∀ items : List α,
      ((NewMemory α maxChunk maxQueue).pushAll sz items).sizeInv ∧
      ((NewMemory α maxChunk maxQueue).pushAll sz items).queueInv) ∧
    (∀ (m : Memory α) (c : MemoryChunk α) (rest : List (MemoryChunk α)) (s : α),
      m.chunks = c :: rest →
      ¬ sz s > m.maxChunkSize →
      c.size + sz s > m.maxChunkSize →
      ((c :: rest).length : Int) + 1 > m.maxQueueSize →
      (m.push sz s).1.chunks =
        MemoryChunk.push sz { size := 0, items := [] } s :: (c :: rest).dropLast) := by
  constructor
  · intro items
    refine Memory.pushAll_inv sz _ items ?_ ?_ ?_
    · exact hq0
    · intro c hc
      simp [NewMemory] at hc
    · simp [Memory.queueInv, NewMemory]
      exact hq0
  · intro m c rest s hm hn ho hq
    obtain ⟨chunks, maxC, maxQ, cl⟩ := m
    simp only at hm hn ho hq
    subst hm
    simp [Memory.push, hn, ho, hq]
    intro hcon
    exfalso
    simp only [List.length_cons] at hq
    push_cast at hq
    omega

/-- C2 witness: the bounds hold for a concrete run (string items of
sizes 1 with max_chunk_size 2 and max_queue_size 1), and the eviction
equation holds at a concrete overflowing push. -/
theorem c2_witness :
    (0 : Int) ≤ 1 ∧
    (((NewMemory String 2 1).pushAll StringItem.size ["a", "b", "c"]).sizeInv ∧
      ((NewMemory String 2 1).pushAll StringItem.size ["a", "b", "c"]).queueInv) := by
  have h := c2_queue_bounds_and_eviction String StringItem.size 2 1 (by decide)
  exact ⟨by decide, h.1 ["a", "b", "c"]⟩

/-- C4 counterexample: a buffer built by two pushes that cut a chunk
holds the older chunk at the Back and the newer at the Front; Close
hands the newer chunk's items to the handler first, so the drain order
is head (newest) to tail (oldest), not tail to head as the claim
states. -/
theorem c4_counterexample :
    ((((NewMemory String 1 10).push StringItem.size "a").1.push
        StringItem.size "b").1.close).2 = [["b"], ["a"]] ∧
    ((((NewMemory String 1 10).push StringItem.size "a").1.push
        StringItem.size "b").1.close).2 ≠ [["a"], ["b"]] := by
  decide

/-- C4 amended: Close marks the buffer closed, hands every remaining
chunk's items to the handler exactly once in order from head (Front,
newest) to tail (Back, oldest) — the reverse of the claimed order —
and leaves the chunk queue empty. -/
theorem c4_close_drains (α : Type) (m : Memory α) :
    (m.close).1.closed = true ∧
    (m.close).1.chunks = [] ∧
    (m.close).2 = m.chunks.map (fun c => c.items) := by
  refine ⟨rfl, rfl, ?_⟩
  show closeWrites m.chunks = _
  induction m.chunks with
  | nil => rfl
  | cons c rest ih => simp [closeWrites, ih]

/-- Route returns u exactly when some entry carrying u matches the tag
and every entry before it fails to match: first-match semantics. -/
theorem routeEntries_eq_some_iff {U : Type} (l : List ((String → Bool) × U))
    (tag : String) (u : U) :
    routeEntries l tag = some u ↔
      ∃ pre p post, l = pre ++ (p, u) :: post ∧ p tag = true ∧
        ∀ q ∈ pre, q.1 tag = false := by
  induction l with
  | nil =>
      simp only [routeEntries]
      constructor
      · intro h
        cases h
      · rintro ⟨pre, p, post, hl, hp, hpre⟩
        exact absurd hl (by simp)
  | cons en rest ih =>
      by_cases he : en.1 tag = true
      · simp only [routeEntries, if_pos he, Option.some.injEq]
        constructor
        · intro heq
          refine ⟨[], en.1, rest, ?_, he, by simp⟩
          simp [← heq]
        · rintro ⟨pre, p, post, hl, hp, hpre⟩
          cases pre with
          | nil =>
              simp only [List.nil_append, List.cons.injEq] at hl
              rw [hl.1]
          | cons q pre2 =>
              simp only [List.cons_append, List.cons.injEq] at hl
              have hq := hpre q (by simp)
              rw [hl.1] at he
              rw [he] at hq
              cases hq
      · simp only [routeEntries, if_neg he]
        rw [ih]
        have he2 : en.1 tag = false := by
          cases hb : en.1 tag
          · rfl
          · exact absurd hb he
        constructor
        · rintro ⟨pre, p, post, hl, hp, hpre⟩
          refine ⟨en :: pre, p, post, by simp [hl], hp, ?_⟩
          intro q hq
          rcases List.mem_cons.mp hq with h1 | h2
          · rw [h1]
            exact he2
          · exact hpre q h2
        · rintro ⟨pre, p, post, hl, hp, hpre⟩
          cases pre with
          | nil =>
              simp only [List.nil_append, List.cons.injEq] at hl
              rw [hl.1] at he
              exact absurd hp he
          | cons q pre2 =>
              simp only [List.cons_append, List.cons.injEq] at hl
              refine ⟨pre2, p, post, hl.2, hp, ?_⟩
              intro q2 hq2
              exact hpre q2 (List.mem_cons_of_mem _ hq2)

/-- Every delivery Emit makes goes to some named router of the
engine. -/
theorem emit_delivery_shape {U : Type} (e : RoutingEngine U) (tag : String)
    (d : Delivery U) (hd : d ∈ e.emit tag) :
    ∃ n r u, (n, r) ∈ e.tr ∧ d = Delivery.toOutput n u ∧ r.route tag = some u := by
  rcases List.mem_filterMap.mp hd with ⟨nr, hmem, heq⟩
  cases hr : nr.2.route tag with
  | none => rw [hr] at heq; cases heq
  | some u =>
      rw [hr] at heq
      simp only [Option.map_some', Option.some.injEq] at heq
      exact ⟨nr.1, nr.2, u, by simpa using hmem, heq.symm, hr⟩

/-- With distinct router names, the deliveries Emit makes through a
given named router are exactly the route result of that router: the
router is consulted exactly once and contributes at most one
delivery. -/
theorem emit_filter_per_router {U : Type} [DecidableEq U] (tr : List (String × TagRouter U))
    (tag : String) (n : String) (r : TagRouter U)
    (hnd : (tr.map Prod.fst).Nodup) (hmem : (n, r) ∈ tr) :
    (tr.filterMap (fun nr => (nr.2.route tag).map
        (fun u => Delivery.toOutput nr.1 u))).filter
        (fun d => d.routerName == some n) =
      ((r.route tag).map (fun u => Delivery.toOutput n u)).toList := by
  induction tr with
  | nil => cases hmem
  | cons hd rest ih =>
      have hnd2 : (rest.map Prod.fst).Nodup := (List.nodup_cons.mp hnd).2
      have hhd : hd.1 ∉ rest.map Prod.fst := (List.nodup_cons.mp hnd).1
      rcases List.mem_cons.mp hmem with h1 | h2
      · subst h1
        have hrest : (rest.filterMap (fun nr => (nr.2.route tag).map
            (fun u => Delivery.toOutput nr.1 u))).filter
            (fun d => d.routerName == some n) = [] := by
          rw [List.filter_eq_nil_iff]
          intro d hd2
          rcases List.mem_filterMap.mp hd2 with ⟨nr, hmem2, heq⟩
          cases hr : nr.2.route tag with
          | none => rw [hr] at heq; cases heq
          | some u =>
              rw [hr] at heq
              simp only [Option.map_some', Option.some.injEq] at heq
              rw [← heq]
              simp only [Delivery.routerName, beq_iff_eq, Option.some.injEq]
              intro hcon
              apply hhd
              have hmm : nr.1 ∈ rest.map Prod.fst := List.mem_map_of_mem Prod.fst hmem2
              rw [hcon] at hmm
              exact hmm
        cases hr : r.route tag with
        | none =>
            simp only [List.filterMap_cons, hr, Option.map_none', Option.toList_none]
            exact hrest
        | some u =>
            simp only [List.filterMap_cons, hr, Option.map_some', Option.toList_some]
            rw [List.filter_cons, hrest]
            simp [Delivery.routerName]
      · have hne : hd.1 ≠ n := by
          intro hcon
          apply hhd
          rw [hcon]
          exact List.mem_map_of_mem Prod.fst h2
        have hih := ih hnd2 h2
        cases hr : hd.2.route tag with
        | none =>
            simp only [List.filterMap_cons, hr, Option.map_none']
            exact hih
        | some u =>
            have hfalse : ¬ ((Delivery.toOutput hd.1 u).routerName == some n) = true := by
              simp [Delivery.routerName, hne]
            simp only [List.filterMap_cons, hr, Option.map_some']
            rw [List.filter_cons, if_neg hfalse]
            exact hih

/-- In an association list with pairwise distinct keys, a key
determines its value. -/
theorem assoc_key_unique {β : Type} (l : List (String × β))
    (hnd : (l.map Prod.fst).Nodup) (n : String) (a b : β)
    (ha : (n, a) ∈ l) (hb : (n, b) ∈ l) : a = b := by
  induction l with
  | nil => cases ha
  | cons hd rest ih =>
      have hnd2 : (rest.map Prod.fst).Nodup := (List.nodup_cons.mp hnd).2
      have hhd : hd.1 ∉ rest.map Prod.fst := (List.nodup_cons.mp hnd).1
      rcases List.mem_cons.mp ha with h1 | h2 <;> rcases List.mem_cons.mp hb with g1 | g2
      · rw [← g1] at h1
        exact congrArg Prod.snd h1
      · exfalso
        apply hhd
        have hmm : (n, b).1 ∈ rest.map Prod.fst := List.mem_map_of_mem Prod.fst g2
        rw [← h1]
        exact hmm
      · exfalso
        apply hhd
        have hmm : (n, a).1 ∈ rest.map Prod.fst := List.mem_map_of_mem Prod.fst h2
        rw [← g1]
        exact hmm
      · exact ih hnd2 h2 g2

/-- C3: an event whose tag matches the filter router is delivered to
the first matching filter unit and Filter returns without touching any
output; an event the filter router does not match is offered to every
distinct named output router exactly once, and within each router it is
delivered to at most the first matching unit. -/
theorem c3_filter_and_output_routing (U : Type) [DecidableEq U] (e : RoutingEngine U)
    (tag : String) (hnd : (e.tr.map Prod.fst).Nodup) :
    (∀ u, e.ftr.route tag = some u →
      e.filterEvent tag = [Delivery.toFilter u] ∧
      ∃ pre p post, e.ftr.entries = pre ++ (p, u) :: post ∧ p tag = true ∧
        ∀ q ∈ pre, q.1 tag = false) ∧
    (e.ftr.route tag = none →
      e.filterEvent tag = e.emit tag ∧
      (∀ d ∈ e.filterEvent tag, ∃ n u, d = Delivery.toOutput n u) ∧
      (∀ n r, (n, r) ∈ e.tr →
        (e.filterEvent tag).filter (fun d => d.routerName == some n) =
          ((r.route tag).map (fun u => Delivery.toOutput n u)).toList) ∧
      (∀ n r u, (n, r) ∈ e.tr → Delivery.toOutput n u ∈ e.filterEvent tag →
        r.route tag = some u ∧
        ∃ pre p post, r.entries = pre ++ (p, u) :: post ∧ p tag = true ∧
          ∀ q ∈ pre, q.1 tag = false)) := by
  constructor
  · intro u hu
    constructor
    · simp [RoutingEngine.filterEvent, hu]
    · exact (routeEntries_eq_some_iff _ _ _).mp hu
  · intro h0
    have hfe : e.filterEvent tag = e.emit tag := by
      simp [RoutingEngine.filterEvent, h0]
    refine ⟨hfe, ?_, ?_, ?_⟩
    · intro d hd
      rw [hfe] at hd
      rcases emit_delivery_shape e tag d hd with ⟨n, r, u, _, hshape, _⟩
      exact ⟨n, u, hshape⟩
    · intro n r hmem
      rw [hfe]
      exact emit_filter_per_router e.tr tag n r hnd hmem
    · intro n r u hmem hd
      rw [hfe] at hd
      rcases emit_delivery_shape e tag _ hd with ⟨n2, r2, u2, hmem2, hshape, hroute⟩
      injection hshape with hn2 hu2
      subst hn2
      subst hu2
      have hr : r2 = r := assoc_key_unique e.tr hnd n r2 r hmem2 hmem
      subst hr
      exact ⟨hroute, (routeEntries_eq_some_iff _ _ _).mp hroute⟩

/-- C3 witness: on the concrete engine (distinct router names "app" and
"sys", filter router empty) the event "app.auth" is not matched by the
filter router, and the deliveries through router "app" are exactly its
first-match route result. -/
theorem c3_witness :
    (exampleEngine.tr.map Prod.fst).Nodup ∧
    exampleEngine.ftr.route "app.auth" = none ∧
    (exampleEngine.filterEvent "app.auth").filter
        (fun d => d.routerName == some "app") =
      ((exampleAppRouter.route "app.auth").map
        (fun u => Delivery.toOutput "app" u)).toList := by
  refine ⟨by decide, rfl, ?_⟩
  have h := c3_filter_and_output_routing Nat exampleEngine "app.auth" (by decide)
  exact (h.2 rfl).2.2.1 "app" exampleAppRouter (List.mem_cons_self _ _)

/-- Folding filter registrations extends every existing filter's router
with all the new entries and appends the chain of new filters, each
carrying exactly the entries registered after it. -/
theorem foldl_addFilterChain (fs : List (Int × TagRouter Int))
    (regs : List ((String → Bool) × Int)) :
    regs.foldl (fun fs2 pu => addFilterChain fs2 pu.1 pu.2) fs =
      fs.map (fun fu => (fu.1, ⟨fu.2.entries ++ regs⟩)) ++ chainOf regs := by
  induction regs generalizing fs with
  | nil =>
      simp only [List.foldl_nil, chainOf, List.append_nil]
      have he : (fun fu : Int × TagRouter Int => (fu.1, TagRouter.mk fu.2.entries)) =
          fun fu => fu := by
        funext fu
        rfl
      rw [he, List.map_id']
  | cons pu rest ih =>
      rw [List.foldl_cons, ih]
      simp [addFilterChain, TagRouter.add, List.map_map, Function.comp, chainOf,
        List.append_assoc]

/-- The chain has one filter per registration. -/
theorem chainOf_length (regs : List ((String → Bool) × Int)) :
    (chainOf regs).length = regs.length := by
  induction regs with
  | nil => rfl
  | cons pu rest ih => simp [chainOf, ih]

/-- Position k of the chain is the k-th registered unit, and its router
holds exactly the registrations after position k. -/
theorem chainOf_getElem (regs : List ((String → Bool) × Int)) (k : Nat)
    (p : String → Bool) (u : Int) (h : regs[k]? = some (p, u)) :
    (chainOf regs)[k]? = some (u, ⟨regs.drop (k + 1)⟩) := by
  induction regs generalizing k with
  | nil => simp at h
  | cons pu rest ih =>
      cases k with
      | zero =>
          simp only [List.getElem?_cons_zero, Option.some.injEq] at h
          subst h
          simp [chainOf]
      | succ k2 =>
          simp only [List.getElem?_cons_succ] at h
          simp only [chainOf, List.getElem?_cons_succ]
          exact ih k2 h

/-- The engine's filter chain after the registrations is the chain. -/
theorem registerFilters_eq_chainOf (regs : List ((String → Bool) × Int)) :
    registerFilters regs = chainOf regs := by
  have h := foldl_addFilterChain [] regs
  simpa [registerFilters] using h

/-- C5: RegisterFilterPlugin extends the chain of the previously
registered filters with the new entry and appends the new filter; after
registering filters f1..fn in order, the outbound router of filter k
holds exactly the entries of the later-registered filters k+1..n in
registration order, and (when unit ids are distinct) never filter k
itself nor any earlier filter. -/
theorem c5_filter_chain_later_only (regs : List ((String → Bool) × Int)) :
    (∀ (compile : String → Option (String → Bool)) (e : EngineM) (conf : FilterConf)
        (p : String → Bool), compile conf.matchPat = some p →
      ((e.registerFilter compile conf).1).filters =
        addFilterChain e.filters p (wrap32 (e.unitID + 1))) ∧
    (∀ (k : Nat) (p : String → Bool) (u : Int), regs[k]? = some (p, u) →
      (registerFilters regs)[k]? = some (u, ⟨regs.drop (k + 1)⟩)) ∧
    ((regs.map Prod.snd).Nodup →
      ∀ (k j : Nat) (pj : String → Bool) (uj : Int) (fk : Int × TagRouter Int),
        j ≤ k → regs[j]? = some (pj, uj) → (registerFilters regs)[k]? = some fk →
        uj ∉ fk.2.entries.map Prod.snd) := by
  refine ⟨?_, ?_, ?_⟩
  · intro compile e conf p hc
    have hfilters : ∀ nm, (e.pluginInstance nm).filters = e.filters := by
      intro nm
      unfold EngineM.pluginInstance
      split <;> rfl
    have hunitID : ∀ nm, (e.pluginInstance nm).unitID = e.unitID := by
      intro nm
      unfold EngineM.pluginInstance
      split <;> rfl
    unfold EngineM.registerFilter
    rw [hc]
    simp only [EngineM.addExecUnit]
    rw [hfilters, hunitID]
  · intro k p u hk
    rw [registerFilters_eq_chainOf]
    exact chainOf_getElem regs k p u hk
  · intro hnd k j pj uj fk hjk hj hk
    rw [registerFilters_eq_chainOf] at hk
    have hklt : k < regs.length := by
      obtain ⟨hlt, _⟩ := List.getElem?_eq_some.mp hk
      rw [chainOf_length] at hlt
      exact hlt
    have hk2 : regs[k]? = some regs[k] := List.getElem?_eq_getElem hklt
    have hpos := chainOf_getElem regs k (regs[k]).1 (regs[k]).2 hk2
    rw [hpos] at hk
    have hfk : fk = ((regs[k]).2, ⟨regs.drop (k + 1)⟩) := by
      injection hk with h3
      exact h3.symm
    rw [hfk]
    show uj ∉ (regs.drop (k + 1)).map Prod.snd
    rw [List.map_drop]
    intro hmem
    obtain ⟨i, hi, hgi⟩ := List.mem_iff_getElem.mp hmem
    rw [List.getElem_drop] at hgi
    have hMj : (regs.map Prod.snd)[j]? = some uj := by
      rw [List.getElem?_map, hj]
      rfl
    obtain ⟨hjlt, hMj2⟩ := List.getElem?_eq_some.mp hMj
    have hbound : k + 1 + i < (regs.map Prod.snd).length := by
      rw [List.length_drop] at hi
      omega
    have heq : (regs.map Prod.snd)[k + 1 + i] = (regs.map Prod.snd)[j] :=
      hgi.trans hMj2.symm
    have hij := (hnd.getElem_inj_iff).mp heq
    omega

/-- C5 witness: registering two filters (patterns for "a" then "b",
with unit ids 1 and 2), the first filter's router holds exactly the
entry of the second filter, and unit 1 is not a target in its own
router. -/
theorem c5_witness :
    (([((fun t => t == "a"), (1 : Int)), ((fun t => t == "b"), 2)] :
        List ((String → Bool) × Int))[0]? = some ((fun t => t == "a"), 1)) ∧
    (registerFilters [((fun t => t == "a"), 1), ((fun t => t == "b"), 2)])[0]? =
      some (1, ⟨[((fun t => t == "b"), 2)]⟩) := by
  constructor
  · rfl
  · exact (c5_filter_chain_later_only
      [((fun t => t == "a"), 1), ((fun t => t == "b"), 2)]).2.1 0
      (fun t => t == "a") 1 rfl

/-- pluginInstance only touches the instance list. -/
theorem pluginInstance_fields (e : EngineM) (nm : String) :
    (e.pluginInstance nm).units = e.units ∧ (e.pluginInstance nm).unitID = e.unitID ∧
    (e.pluginInstance nm).tr = e.tr ∧ (e.pluginInstance nm).bufs = e.bufs := by
  unfold EngineM.pluginInstance
  split <;> exact ⟨rfl, rfl, rfl, rfl⟩

/-- Updating a name that does not occur leaves the router map
unchanged. -/
theorem updateRouter_not_mem (l : List (String × TagRouter Int)) (name : String)
    (f : TagRouter Int → TagRouter Int) (h : name ∉ l.map Prod.fst) :
    updateRouter l name f = l := by
  induction l with
  | nil => rfl
  | cons nr rest ih =>
      simp only [List.map_cons, List.mem_cons] at h
      push_neg at h
      unfold updateRouter
      rw [if_neg (fun hcon => h.1 hcon.symm), ih h.2]

/-- updateRouter distributes over list append. -/
theorem updateRouter_append (l1 l2 : List (String × TagRouter Int)) (name : String)
    (f : TagRouter Int → TagRouter Int) :
    updateRouter (l1 ++ l2) name f = updateRouter l1 name f ++ updateRouter l2 name f := by
  induction l1 with
  | nil => rfl
  | cons nr rest ih =>
      show (if nr.1 = name then (nr.1, f nr.2) else nr) :: updateRouter (rest ++ l2) name f =
        ((if nr.1 = name then (nr.1, f nr.2) else nr) :: updateRouter rest name f) ++
          updateRouter l2 name f
      rw [List.cons_append, ih]

/-- C8 amended: an unknown buffer name fails registration before
anything is created, leaving the engine unchanged; an invalid match
pattern also returns an error and adds no route entry to any router,
but only after the exec unit has been created and registered (and the
empty named router created if missing); with a valid pattern
registration succeeds and the compiled entry is added to the named
router. -/
theorem c8_output_registration (compile : String → Option (String → Bool)) (e : EngineM)
    (name : String) (conf : OutConf) :
    (conf.buffer.getD "default" ∉ e.bufs →
      (e.registerOutput compile name conf).1 = e ∧
      (e.registerOutput compile name conf).2.isSome = true) ∧
    (conf.buffer.getD "default" ∈ e.bufs → compile conf.matchPat = none →
      (e.registerOutput compile name conf).2.isSome = true ∧
      (e.registerOutput compile name conf).1.units = e.units ++ [wrap32 (e.unitID + 1)] ∧
      (e.registerOutput compile name conf).1.tr.map (fun nr => (nr.1, nr.2.entries)) =
        e.tr.map (fun nr => (nr.1, nr.2.entries)) ++
          (if name ∈ e.tr.map Prod.fst then [] else [(name, [])])) ∧
    (∀ p, conf.buffer.getD "default" ∈ e.bufs → compile conf.matchPat = some p →
      (e.registerOutput compile name conf).2 = none ∧
      (e.registerOutput compile name conf).1.units = e.units ++ [wrap32 (e.unitID + 1)] ∧
      (name ∉ e.tr.map Prod.fst →
        (e.registerOutput compile name conf).1.tr =
          e.tr ++ [(name, ⟨[(p, wrap32 (e.unitID + 1))]⟩)])) := by
  have hfields := pluginInstance_fields e ("out-" ++ conf.typ)
  have h2units : ((e.pluginInstance ("out-" ++ conf.typ)).addExecUnit).1.units
      = e.units ++ [wrap32 (e.unitID + 1)] := by
    simp only [EngineM.addExecUnit]
    rw [hfields.1, hfields.2.1]
  have h2tr : ((e.pluginInstance ("out-" ++ conf.typ)).addExecUnit).1.tr = e.tr := by
    simp only [EngineM.addExecUnit]
    exact hfields.2.2.1
  have h2uid : ((e.pluginInstance ("out-" ++ conf.typ)).addExecUnit).2
      = wrap32 (e.unitID + 1) := by
    simp only [EngineM.addExecUnit]
    rw [hfields.2.1]
  refine ⟨?_, ?_, ?_⟩
  · intro hbuf
    simp only [EngineM.registerOutput]
    rw [if_neg hbuf]
    exact ⟨rfl, rfl⟩
  · intro hbuf hc
    simp only [EngineM.registerOutput]
    rw [if_pos hbuf, hc]
    by_cases hn : name ∈ ((e.pluginInstance ("out-" ++ conf.typ)).addExecUnit).1.tr.map Prod.fst
    · have hn2 : name ∈ e.tr.map Prod.fst := h2tr ▸ hn
      rw [if_pos hn]
      refine ⟨rfl, h2units, ?_⟩
      rw [h2tr, if_pos hn2, List.append_nil]
    · have hn2 : name ∉ e.tr.map Prod.fst := h2tr ▸ hn
      rw [if_neg hn]
      refine ⟨rfl, h2units, ?_⟩
      simp only [List.map_append, h2tr, if_neg hn2]
      rfl
  · intro p hbuf hc
    simp only [EngineM.registerOutput]
    rw [if_pos hbuf, hc]
    by_cases hn : name ∈ ((e.pluginInstance ("out-" ++ conf.typ)).addExecUnit).1.tr.map Prod.fst
    · have hn2 : name ∈ e.tr.map Prod.fst := h2tr ▸ hn
      rw [if_pos hn]
      exact ⟨rfl, h2units, fun hcon => absurd hn2 hcon⟩
    · have hn2 : name ∉ e.tr.map Prod.fst := h2tr ▸ hn
      rw [if_neg hn]
      refine ⟨rfl, h2units, ?_⟩
      intro _
      simp only [updateRouter_append, h2tr, h2uid]
      rw [updateRouter_not_mem e.tr name _ hn2]
      unfold updateRouter
      rw [if_pos rfl]
      rfl

/-- C8 counterexample: registering an output with the invalid match
pattern "(" (regexp.Compile fails on it) against the default buffer
returns an error, yet the exec unit has been created and registered:
the fresh engine's unit list grows from empty to [1]. -/
theorem c8_counterexample :
    ((EngineM.new.registerOutput (fun s => if s = "(" then none else some (fun _ => true))
        "web" { typ := "es", buffer := none, matchPat := "(" }).2.isSome = true) ∧
    ((EngineM.new.registerOutput (fun s => if s = "(" then none else some (fun _ => true))
        "web" { typ := "es", buffer := none, matchPat := "(" }).1.units = [1]) := by
  constructor
  · decide
  · decide

/-- C8 witness: the amended behaviour applied at the counterexample's
input: the buffer name resolves to the registered "default" policy, the
pattern fails to compile, an error is reported, and the unit list has
grown by the freshly assigned id. -/
theorem c8_witness :
    ((OutConf.mk "es" none "(").buffer.getD "default" ∈ EngineM.new.bufs ∧
      (fun s => if s = "(" then none else some (fun _ : String => true))
        (OutConf.mk "es" none "(").matchPat = none) ∧
    ((EngineM.new.registerOutput
        (fun s => if s = "(" then none else some (fun _ => true)) "web"
        (OutConf.mk "es" none "(")).2.isSome = true ∧
      (EngineM.new.registerOutput
        (fun s => if s = "(" then none else some (fun _ => true)) "web"
        (OutConf.mk "es" none "(")).1.units =
        EngineM.new.units ++ [wrap32 (EngineM.new.unitID + 1)] ∧
      (EngineM.new.registerOutput
        (fun s => if s = "(" then none else some (fun _ => true)) "web"
        (OutConf.mk "es" none "(")).1.tr.map (fun nr => (nr.1, nr.2.entries)) =
        EngineM.new.tr.map (fun nr => (nr.1, nr.2.entries)) ++
          (if "web" ∈ EngineM.new.tr.map Prod.fst then [] else [("web", [])])) := by
  refine ⟨⟨by decide, rfl⟩, ?_⟩
  exact (c8_output_registration
    (fun s => if s = "(" then none else some (fun _ => true)) EngineM.new "web"
    (OutConf.mk "es" none "(")).2.1 (by decide) rfl

/-- int32 wrap-around absorbs an inner wrap. -/
theorem wrap32_wrap32_add (x y : Int) : wrap32 (wrap32 x + y) = wrap32 (x + y) := by
  unfold wrap32
  have h31 : (2 : Int) ^ 31 = 2147483648 := by norm_num
  have h32 : (2 : Int) ^ 32 = 4294967296 := by norm_num
  rw [h31, h32]
  omega

/-- Small non-negative values are fixed points of the int32 wrap. -/
theorem wrap32_eq_self (x : Int) (h0 : 0 ≤ x) (h1 : x < 2 ^ 31) : wrap32 x = x := by
  unfold wrap32
  have h31 : (2 : Int) ^ 31 = 2147483648 := by norm_num
  have h32 : (2 : Int) ^ 32 = 4294967296 := by norm_num
  rw [h31, h32]
  rw [h31] at h1
  omega

/-- The id sequence extends one id at a time. -/
theorem unitsOf_succ (n : Nat) :
    unitsOf (n + 1) = unitsOf n ++ [wrap32 ((n : Int) + 1)] := by
  unfold unitsOf
  rw [List.range_succ, List.map_append]
  rfl

/-- The id sequence has one id per created unit. -/
theorem unitsOf_length (n : Nat) : (unitsOf n).length = n := by
  unfold unitsOf
  rw [List.length_map, List.length_range]

/-- addExecUnit preserves the id-assignment invariant. -/
theorem addExecUnit_idInv (e : EngineM) (h : idInv e) : idInv (e.addExecUnit).1 := by
  obtain ⟨h1, h2⟩ := h
  unfold idInv EngineM.addExecUnit
  simp only [List.length_append, List.length_singleton]
  constructor
  · rw [unitsOf_succ, h2, wrap32_wrap32_add]
    conv_lhs => rw [h1]
    rw [unitsOf_length]
  · rw [h2, wrap32_wrap32_add]
    push_cast
    rfl

/-- pluginInstance preserves the id-assignment invariant. -/
theorem pluginInstance_idInv (e : EngineM) (nm : String) (h : idInv e) :
    idInv (e.pluginInstance nm) := by
  unfold EngineM.pluginInstance
  split
  · exact h
  · exact h

/-- Every registration operation preserves the id-assignment
invariant: it either leaves the unit list alone or appends the next
wrapped id. -/
theorem applyOp_idInv (compile : String → Option (String → Bool)) (e : EngineM)
    (op : RegOp) (h : idInv e) : idInv (e.applyOp compile op) := by
  cases op with
  | input t =>
      exact addExecUnit_idInv _ (pluginInstance_idInv e _ h)
  | filt c =>
      show idInv (e.registerFilter compile c).1
      unfold EngineM.registerFilter
      cases hc : compile c.matchPat with
      | none => exact addExecUnit_idInv _ (pluginInstance_idInv e _ h)
      | some p => exact addExecUnit_idInv _ (pluginInstance_idInv e _ h)
  | output n c =>
      show idInv (e.registerOutput compile n c).1
      simp only [EngineM.registerOutput]
      by_cases hbuf : c.buffer.getD "default" ∈ e.bufs
      · rw [if_pos hbuf]
        have h2 : idInv ((e.pluginInstance ("out-" ++ c.typ)).addExecUnit).1 :=
          addExecUnit_idInv _ (pluginInstance_idInv e _ h)
        by_cases hn : n ∈ ((e.pluginInstance ("out-" ++ c.typ)).addExecUnit).1.tr.map Prod.fst
        · rw [if_pos hn]
          cases hc : compile c.matchPat with
          | none => exact h2
          | some p => exact h2
        · rw [if_neg hn]
          cases hc : compile c.matchPat with
          | none => exact h2
          | some p => exact h2
      · rw [if_neg hbuf]
        exact h

/-- Folding registration operations preserves the invariant. -/
theorem foldl_applyOp_idInv (compile : String → Option (String → Bool))
    (ops : List RegOp) (e : EngineM) (h : idInv e) :
    idInv (ops.foldl (EngineM.applyOp compile) e) := by
  induction ops generalizing e with
  | nil => exact h
  | cons op rest ih => exact ih _ (applyOp_idInv compile e op h)

/-- C10: the unit ids assigned by the engine's registration operations
are the consecutive integers 1, 2, ... in registration order (as long
as fewer than 2^31 units are created, so that the int32 counter does
not wrap), hence every exec unit id is strictly positive and never the
reserved value 0 that addresses the plugin instance itself. -/
theorem c10_unit_ids (compile : String → Option (String → Bool)) (ops : List RegOp)
    (h : (ops.foldl (EngineM.applyOp compile) EngineM.new).units.length < 2 ^ 31) :
    (ops.foldl (EngineM.applyOp compile) EngineM.new).units =
      (List.range (ops.foldl (EngineM.applyOp compile) EngineM.new).units.length).map
        (fun i : Nat => (i : Int) + 1) ∧
    (∀ uid ∈ (ops.foldl (EngineM.applyOp compile) EngineM.new).units,
      0 < uid ∧ uid ≠ 0) := by
  have hnew : idInv EngineM.new := by
    constructor
    · rfl
    · decide
  have hinv := foldl_applyOp_idInv compile ops EngineM.new hnew
  have hunits : (ops.foldl (EngineM.applyOp compile) EngineM.new).units =
      (List.range (ops.foldl (EngineM.applyOp compile) EngineM.new).units.length).map
        (fun i : Nat => (i : Int) + 1) := by
    conv_lhs => rw [hinv.1]
    unfold unitsOf
    apply List.map_congr_left
    intro i hi
    have hilt : i < (ops.foldl (EngineM.applyOp compile) EngineM.new).units.length :=
      List.mem_range.mp hi
    apply wrap32_eq_self
    · omega
    · have h31 : ((2 : Int) ^ 31) = ((2 ^ 31 : Nat) : Int) := by norm_num
      rw [h31]
      push_cast
      omega
  refine ⟨hunits, ?_⟩
  intro uid hmem
  rw [hunits] at hmem
  rcases List.mem_map.mp hmem with ⟨i, hir, hi⟩
  have hi2 : (i : Int) + 1 = uid := hi
  constructor
  · omega
  · omega

/-- C10 witness: three registrations (an input, a filter and an output)
on a fresh engine assign unit ids 1, 2, 3 — all positive, none 0. -/
theorem c10_witness :
    (([RegOp.input "forward", RegOp.filt (FilterConf.mk "grep" "a"),
        RegOp.output "web" (OutConf.mk "es" none "b")].foldl
        (EngineM.applyOp (fun _ => some (fun _ => true))) EngineM.new).units.length < 2 ^ 31) ∧
    (([RegOp.input "forward", RegOp.filt (FilterConf.mk "grep" "a"),
        RegOp.output "web" (OutConf.mk "es" none "b")].foldl
        (EngineM.applyOp (fun _ => some (fun _ => true))) EngineM.new).units =
      (List.range ([RegOp.input "forward", RegOp.filt (FilterConf.mk "grep" "a"),
        RegOp.output "web" (OutConf.mk "es" none "b")].foldl
        (EngineM.applyOp (fun _ => some (fun _ => true))) EngineM.new).units.length).map
        (fun i : Nat => (i : Int) + 1)) := by
  refine ⟨by decide, ?_⟩
  exact (c10_unit_ids (fun _ => some (fun _ => true))
    [RegOp.input "forward", RegOp.filt (FilterConf.mk "grep" "a"),
      RegOp.output "web" (OutConf.mk "es" none "b")] (by decide)).1

/-- C9 counterexample: a TypEventChain message whose payload is an
array of two events satisfies the section 6.1 schema, but decoding its
encoding does not restore it: the decode switch tries to read a single
Event and an encoded array of events is not decodable as one Event, so
the round-trip fails. -/
theorem c9_counterexample :
    specSchemaOk MessageType.eventChain
      (Payload.events [Event.mk "a" 1 [], Event.mk "b" 2 []]) ∧
    Message.decode MessageType.eventChain
      (Message.encode
        ⟨MessageType.eventChain, 7,
          Payload.events [Event.mk "a" 1 [], Event.mk "b" 2 []]⟩) = none ∧
    Message.decode MessageType.eventChain
      (Message.encode
        ⟨MessageType.eventChain, 7,
          Payload.events [Event.mk "a" 1 [], Event.mk "b" 2 []]⟩) ≠
      some ⟨MessageType.eventChain, 7,
        Payload.events [Event.mk "a" 1 [], Event.mk "b" 2 []]⟩ := by
  refine ⟨trivial, rfl, ?_⟩
  intro hcon
  simp [Message.encode, Message.decode, decodePayload] at hcon

/-- C9 amended: for every message whose payload matches the decode
target of its type — PluginInfo for InfoResponse, the options record
for BufferOption, a string for Configure, a single Event for Event and
also for EventChain (the decode switch treats both alike, not an array
of events as section 6.1 states), and a generic value for the remaining
types — decoding the encoding of the message restores it exactly. -/
theorem c9_codec_roundtrip (m : Message) (h : schemaOk m.typ m.payload) :
    Message.decode m.typ (Message.encode m) = some m := by
  obtain ⟨t, u, p⟩ := m
  cases t <;> cases p <;> first | exact h.elim | rfl

/-- C9 witness: a Configure message with a string payload round-trips
through the codec. -/
theorem c9_witness :
    schemaOk MessageType.configure (Payload.str "conf") ∧
    Message.decode MessageType.configure
      (Message.encode ⟨MessageType.configure, 3, Payload.str "conf"⟩) =
      some ⟨MessageType.configure, 3, Payload.str "conf"⟩ :=
  ⟨trivial, c9_codec_roundtrip ⟨MessageType.configure, 3, Payload.str "conf"⟩ trivial⟩

/-- C6: Push returns an error exactly when the item is larger than
max_chunk_size; a failed push leaves the buffer unchanged; and a push
of an item whose size equals max_chunk_size into an empty buffer (with
a queue bound of at least one) succeeds and the item sits alone in a
single chunk. -/
theorem c6_push_error_iff (α : Type) (sz : α → Int) (m : Memory α) (s : α)
    (hq : 1 ≤ m.maxQueueSize) :
    ((m.push sz s).2.isSome ↔ sz s > m.maxChunkSize) ∧
    ((m.push sz s).2.isSome → (m.push sz s).1 = m) ∧
    (m.chunks = [] → sz s = m.maxChunkSize →
      (m.push sz s).1.chunks = [{ size := sz s, items := [s] }] ∧
      (m.push sz s).2 = none) := by
  obtain ⟨chunks, maxC, maxQ, cl⟩ := m
  simp only at hq
  refine ⟨?_, ?_, ?_⟩
  · cases chunks with
    | nil =>
        by_cases hn : sz s > maxC
        · simp [Memory.push, hn]
        · by_cases hq1 : (1 : Int) > maxQ
          · simp [Memory.push, hn, hq1]
          · simp [Memory.push, hn, hq1]
    | cons c rest =>
        by_cases hn : sz s > maxC
        · simp [Memory.push, hn]
        · by_cases ho : c.size + sz s > maxC
          · by_cases hq1 : ((c :: rest).length : Int) + 1 > maxQ
            · simp [Memory.push, hn, ho, hq1]
            · simp [Memory.push, hn, ho, hq1]
          · simp [Memory.push, hn, ho]
  · intro herr
    cases chunks with
    | nil =>
        by_cases hn : sz s > maxC
        · simp [Memory.push, hn]
        · by_cases hq1 : (1 : Int) > maxQ
          · simp [Memory.push, hn, hq1] at herr
          · simp [Memory.push, hn, hq1] at herr
    | cons c rest =>
        by_cases hn : sz s > maxC
        · simp [Memory.push, hn]
        · by_cases ho : c.size + sz s > maxC
          · by_cases hq1 : ((c :: rest).length : Int) + 1 > maxQ
            · simp [Memory.push, hn, ho, hq1] at herr
            · simp [Memory.push, hn, ho, hq1] at herr
          · simp [Memory.push, hn, ho] at herr
  · intro hnil hx
    have hx2 : sz s = maxC := hx
    have hq2 : (1 : Int) ≤ maxQ := hq
    subst hnil
    have hn : ¬ sz s > maxC := by omega
    have hq1 : ¬ (1 : Int) > maxQ := by omega
    simp [Memory.push, hn, hq1, MemoryChunk.push]

/-- C6 witness: a 3-byte item equal to the chunk bound pushed into an
empty buffer with queue bound 2 draws no error and sits alone in one
chunk. -/
theorem c6_witness :
    (1 : Int) ≤ (NewMemory String 3 2).maxQueueSize ∧
    (((NewMemory String 3 2).push StringItem.size "abc").1.chunks =
        [{ size := StringItem.size "abc", items := ["abc"] }] ∧
      ((NewMemory String 3 2).push StringItem.size "abc").2 = none) := by
  have h := c6_push_error_iff String StringItem.size (NewMemory String 3 2) "abc" (by decide)
  exact ⟨by decide, h.2.2 rfl (by decide)⟩

/-- C7 counterexample: with max_chunk_size 2, pushing a 1-byte item
onto a head chunk of size 1 brings the head to exactly the bound but
does not retire it: the queue still holds a single chunk containing
both items, whereas retiring the head would have started a fresh head
chunk for the new item. -/
theorem c7_counterexample :
    (((NewMemory String 2 10).push StringItem.size "a").1.push
        StringItem.size "b").1.chunks = [{ size := 2, items := ["a", "b"] }] ∧
    (((NewMemory String 2 10).push StringItem.size "a").1.push
        StringItem.size "b").1.chunks.length ≠ 2 := by
  decide

/-- C7 amended: a push whose item would bring the head chunk's size to
exactly max_chunk_size succeeds, appends the item into the existing
head without retiring it (the queue shape is unchanged), and leaves the
head at exactly max_chunk_size, so no chunk overflows; the head is only
retired by a later push that would exceed the bound. -/
theorem c7_exact_fill_keeps_head (α : Type) (sz : α → Int) (m : Memory α)
    (c : MemoryChunk α) (rest : List (MemoryChunk α)) (s : α)
    (hm : m.chunks = c :: rest) (hc : 0 ≤ c.size)
    (hx : c.size + sz s = m.maxChunkSize) :
    (m.push sz s).2 = none ∧
    (m.push sz s).1.chunks = MemoryChunk.push sz c s :: rest ∧
    (MemoryChunk.push sz c s).size = m.maxChunkSize ∧
    (m.push sz s).1.chunks.length = m.chunks.length := by
  obtain ⟨chunks, maxC, maxQ, cl⟩ := m
  simp only at hm hx
  subst hm
  have hn : ¬ sz s > maxC := by omega
  have ho : ¬ c.size + sz s > maxC := by omega
  simp [Memory.push, hn, ho, MemoryChunk.push]
  omega

/-- C7 witness: the amended behaviour at the counterexample's input
(head of size 1, item of size 1, bound 2). -/
theorem c7_witness :
    ((((NewMemory String 2 10).push StringItem.size "a").1.push
        StringItem.size "b").2 = none ∧
      (((NewMemory String 2 10).push StringItem.size "a").1.push
          StringItem.size "b").1.chunks =
        MemoryChunk.push StringItem.size { size := 1, items := ["a"] } "b" :: [] ∧
      (MemoryChunk.push StringItem.size { size := 1, items := ["a"] } "b").size =
        ((NewMemory String 2 10).push StringItem.size "a").1.maxChunkSize ∧
      (((NewMemory String 2 10).push StringItem.size "a").1.push
          StringItem.size "b").1.chunks.length =
        ((NewMemory String 2 10).push StringItem.size "a").1.chunks.length) := by
  exact c7_exact_fill_keeps_head String StringItem.size
    ((NewMemory String 2 10).push StringItem.size "a").1
    { size := 1, items := ["a"] } [] "b" (by decide) (by decide) (by decide)

end Theorems
